import Mathlib

/-!
Verification of the `pydependencies` dependency-inference engine
(`dependencies.py`): the AST-based source analyzer, the glob call-pattern
filename extractor, module-to-filesystem resolution, template include
scanning, the lazy dependency-graph builder, and the reachability
(transitive-closure) engine.

The Python code is shallowly embedded: dictionaries become association
lists, Python sets become `Finset String`, unbounded `while` loops become
fuel-indexed recursion (with the fuel proved sufficient), and operations
that can raise (`KeyError` on `graph[n]`, `AttributeError` on
`None.split`, I/O and parse failures) return `Option`/`Except` or an
explicit result variant.
-/

/-! ## Reachability engine (`_reachable`) -/

/-- A dependency graph: Python dict from filename to the set of direct
dependencies, in insertion order. -/
abbrev Graph := List (String × Finset String)

/-- Python `graph[n]`: dictionary lookup, `none` models a `KeyError`. -/
def lookupG (g : Graph) (n : String) : Option (Finset String) :=
  (g.find? (fun p => p.1 == n)).map (·.2)

/-- The keys of the graph, in order. -/
def keysG (g : Graph) : List String :=
  g.map (·.1)

/-- The union of all dependency value sets of the graph. -/
def valsUnion (g : Graph) : Finset String :=
  g.foldr (fun p acc => p.2 ∪ acc) ∅

/-- All filenames mentioned by the graph (keys and values). -/
def univG (g : Graph) : Finset String :=
  (keysG g).toFinset ∪ valsUnion g

/-- The body `for n in latest_nodes: new_nodes.update(graph[n])` of
`_reachable`'s inner loop: union of `graph[n]` over the iteration list,
`none` if some lookup raises `KeyError`. -/
def unionDeps (g : Graph) : List String → Option (Finset String)
  | [] => some ∅
  | n :: ns =>
    match lookupG g n, unionDeps g ns with
    | some d, some u => some (d ∪ u)
    | _, _ => none

/-- Result of the per-node closure loop: a `KeyError`, exhausted fuel
(never happens with the fuel used by `_reachable`), or the computed set. -/
inductive CRes where
  | keyError : CRes
  | fuelOut : CRes
  | done : Finset String → CRes
deriving DecidableEq

/-- The `while latest_nodes:` loop of `_reachable`, with `enum` modelling
Python's (arbitrary-order) set iteration and explicit fuel standing for
the unbounded loop.  Each iteration computes
`new_nodes = union(graph[n] for n in latest) - reach` and continues with
`reach ∪ new_nodes` and frontier `new_nodes`. -/
def closureLoop (enum : Finset String → List String) (g : Graph) :
    Nat → Finset String → Finset String → CRes
  | 0, reach, latest => if latest = ∅ then .done reach else .fuelOut
  | fuel + 1, reach, latest =>
    if latest = ∅ then .done reach
    else
      match unionDeps g (enum latest) with
      | none => .keyError
      | some u => closureLoop enum g fuel (reach ∪ (u \ reach)) (u \ reach)

/-- Result of `_reachable`: `KeyError`, exhausted fuel, or the
reachability map. -/
inductive RRes where
  | keyError : RRes
  | fuelOut : RRes
  | done : List (String × Finset String) → RRes
deriving DecidableEq

/-- The `for node in graph:` loop of `_reachable`: for each key `node`,
start from `{node} ∪ graph[node]` and run the closure loop. -/
def reachableAux (enum : Finset String → List String) (g : Graph) (fuel : Nat) :
    List String → RRes
  | [] => .done []
  | n :: rest =>
    match lookupG g n with
    | none => .keyError
    | some d =>
      match closureLoop enum g fuel (insert n d) (insert n d) with
      | .keyError => .keyError
      | .fuelOut => .fuelOut
      | .done r =>
        match reachableAux enum g fuel rest with
        | .done m => .done ((n, r) :: m)
        | e => e

/-- `_reachable`, parameterised by the set-iteration order `enum`.  The
fuel `(univG g).card + 2` is proved sufficient below (the loop adds at
least one filename mentioned by the graph per iteration). -/
def reachableWithEnum (enum : Finset String → List String) (g : Graph) : RRes :=
  reachableAux enum g ((univG g).card + 2) (keysG g)

/-- `_reachable` with the canonical set-enumeration order. -/
def _reachable (g : Graph) : RRes :=
  reachableWithEnum (fun s => s.sort (· ≤ ·)) g

/-- One edge of the dependency graph: `b` is a direct dependency of `a`. -/
def EdgeG (g : Graph) (a b : String) : Prop :=
  ∃ d, lookupG g a = some d ∧ b ∈ d

/-- `b` is reachable from `a` via zero or more dependency edges. -/
def Reaches (g : Graph) (a b : String) : Prop :=
  Relation.ReflTransGen (EdgeG g) a b

/-- The graph is closed: every dependency value is also a key. -/
def ClosedG (g : Graph) : Prop :=
  ∀ p ∈ g, p.2 ⊆ (keysG g).toFinset

instance (g : Graph) : Decidable (ClosedG g) := by
  unfold ClosedG; infer_instance

/-! ## Shell-style glob matching (`fnmatch.fnmatch`) -/

/-- Scan forward for the `]` closing a character class, returning the class
contents and the number of characters consumed (including the `]`). -/
def findClose : List Char → Option (List Char × Nat)
  | [] => none
  | ']' :: _ => some ([], 1)
  | c :: rest => (findClose rest).map (fun p => (c :: p.1, p.2 + 1))

/-- Parse a character class after `[`: a leading `!` and an immediately
following `]` belong to the class contents (as in `fnmatch.translate`). -/
def scanClass : List Char → Option (List Char × Nat)
  | '!' :: ']' :: rest => (findClose rest).map (fun p => ('!' :: ']' :: p.1, p.2 + 2))
  | '!' :: rest => (findClose rest).map (fun p => ('!' :: p.1, p.2 + 1))
  | ']' :: rest => (findClose rest).map (fun p => (']' :: p.1, p.2 + 1))
  | p => findClose p

/-- Membership of a character in class items, with `a-b` ranges and a
trailing `-` taken literally (regex character-class semantics). -/
def inClass : List Char → Char → Bool
  | a :: '-' :: b :: rest, c => (a ≤ c && c ≤ b) || inClass rest c
  | a :: rest, c => (c == a) || inClass rest c
  | [], _ => false

/-- Match one character against class contents, honouring a leading `!`. -/
def matchClass (stuff : List Char) (c : Char) : Bool :=
  match stuff with
  | '!' :: rest => !(inClass rest c)
  | _ => inClass stuff c

/-- Whole-string glob matching: `*` matches any sequence, `?` any single
character, `[...]` a character class (unterminated `[` is literal), and
any other character matches itself.  Fuel bounds the recursion; every step
shrinks pattern length plus string length, so the fuel used by `globMatch`
never runs out. -/
def globMatchFuel : Nat → List Char → List Char → Bool
  | 0, _, _ => false
  | _ + 1, [], [] => true
  | _ + 1, [], _ :: _ => false
  | fuel + 1, '*' :: ps, [] => globMatchFuel fuel ps []
  | fuel + 1, '*' :: ps, c :: ss =>
    globMatchFuel fuel ps (c :: ss) || globMatchFuel fuel ('*' :: ps) ss
  | _ + 1, '?' :: _, [] => false
  | fuel + 1, '?' :: ps, _ :: ss => globMatchFuel fuel ps ss
  | _ + 1, '[' :: _, [] => false
  | fuel + 1, '[' :: ps, c :: ss =>
    match scanClass ps with
    | some (stuff, n) => matchClass stuff c && globMatchFuel fuel (ps.drop n) ss
    | none => (c == '[') && globMatchFuel fuel ps ss
  | _ + 1, _ :: _, [] => false
  | fuel + 1, p :: ps, c :: ss => (p == c) && globMatchFuel fuel ps ss

/-- Glob matching with sufficient fuel. -/
def globMatch (p s : List Char) : Bool :=
  globMatchFuel (p.length + s.length + 1) p s

/-- `fnmatch.fnmatch(name, pattern)` (POSIX `normcase` is the identity). -/
def fnmatch (name pat : String) : Bool :=
  globMatch pat.data name.data

/-! ## Source analyzer (`DependencyVisitor`) -/

/-- A call-argument expression: a string literal (`ast.Str`) or anything
else. -/
inductive PExpr where
  | str : String → PExpr
  | other : PExpr
deriving DecidableEq

/-- The callee of a call: a bare name (`ast.Name`), a dotted access whose
final attribute is kept (`ast.Attribute`), or any other expression. -/
inductive PCallee where
  | name : String → PCallee
  | attr : String → PCallee
  | other : PCallee
deriving DecidableEq

/-- The argument selector of a configured function pattern: a keyword name
(`basestring`) or a positional index. -/
inductive ArgSel where
  | kw : String → ArgSel
  | pos : Nat → ArgSel

/-- One entry of the `functions` configuration:
`(function_pattern, function_arg, post_processor)`. -/
structure CallPattern where
  pat : String
  sel : ArgSel
  post : Option (String → String)

/-- An `ast.Call` node, reduced to the fields the visitor inspects. -/
structure CallNode where
  callee : PCallee
  args : List PExpr
  keywords : List (String × PExpr)

/-- `dict((k.arg, k.value) for k in keywords).get(name)`: the last binding
of a keyword wins. -/
def kwGet (kws : List (String × PExpr)) (k : String) : Option PExpr :=
  (kws.reverse.find? (fun p => p.1 == k)).map (·.2)

/-- Resolve the designated argument: keyword selectors look up by name,
positional selectors index into the positional arguments (out of range
gives nothing, like Python's untouched `arg = None`). -/
def resolveArg (sel : ArgSel) (args : List PExpr) (kws : List (String × PExpr)) :
    Option PExpr :=
  match sel with
  | .kw s => kwGet kws s
  | .pos i => args[i]?

/-- Apply the optional post-processor (`if post_processor: ...`). -/
def applyPost : Option (String → String) → String → String
  | none, s => s
  | some f, s => f s

/-- `DependencyVisitor._extract_filename`: walk the configured patterns in
order; for a glob-matching pattern whose resolved argument is a string
literal, return the (possibly post-processed) string; otherwise keep
trying the remaining patterns. -/
def _extract_filename (functions : List CallPattern) (function_name : String)
    (args : List PExpr) (kws : List (String × PExpr)) : Option String :=
  match functions with
  | [] => none
  | cp :: rest =>
    if fnmatch function_name cp.pat then
      match resolveArg cp.sel args kws with
      | some (.str s) => some (applyPost cp.post s)
      | _ => _extract_filename rest function_name args kws
    else _extract_filename rest function_name args kws

/-- Derive the callee's simple name: `ast.Name` gives its id,
`ast.Attribute` its final attribute, anything else has no name. -/
def calleeName : PCallee → Option String
  | .name s => some s
  | .attr s => some s
  | .other => none

/-- `DependencyVisitor.visit_Call`: append the extracted filename, if any;
Python's `if filename:` drops the empty string. -/
def visit_Call (functions : List CallPattern) (node : CallNode)
    (filenames : List String) : List String :=
  match calleeName node.callee with
  | none => filenames
  | some fn =>
    match _extract_filename functions fn node.args node.keywords with
    | some s => if s = "" then filenames else filenames ++ [s]
    | none => filenames

/-- A statement as seen by the visitor: a call, an `import`, or a
`from ... import ...` whose module may be `None` (relative import). -/
inductive Stmt where
  | call : CallNode → Stmt
  | imp : List String → Stmt
  | importFrom : Option String → List String → Stmt

/-- The visitor's mutable state: recorded module entries (Python strings
or `None`), recorded filenames, and the absolute-import flag. -/
structure VisitorState where
  modules : List (Option String)
  filenames : List String
  absolute_import : Bool
deriving DecidableEq

/-- Python `'%s' % x` for a string-or-`None` value. -/
def pyFormat : Option String → String
  | none => "None"
  | some s => s

/-- One visitor step: `visit_Call`, `visit_Import`, `visit_ImportFrom`.
`visit_ImportFrom` records the raw module (possibly `None`) plus
`'%s.%s' % (module, name)` for each imported name, and sets the
absolute-import flag on `from __future__ import absolute_import`. -/
def visitStmt (functions : List CallPattern) (st : VisitorState) : Stmt → VisitorState
  | .call node => { st with filenames := visit_Call functions node st.filenames }
  | .imp names => { st with modules := st.modules ++ names.map some }
  | .importFrom m names =>
    { st with
      modules := st.modules ++ (m :: names.map (fun nm => some (pyFormat m ++ "." ++ nm))),
      absolute_import :=
        st.absolute_import || (m == some "__future__" && names.contains "absolute_import") }

/-- Run the visitor over a parsed module body (initial flag is `False`:
`sys.version_info == 3` compares a tuple with an int). -/
def runVisitor (functions : List CallPattern) (stmts : List Stmt) : VisitorState :=
  stmts.foldl (visitStmt functions) ⟨[], [], false⟩

/-- Python `s.endswith(post)`, char-exact. -/
def pyEndsWith (s post : String) : Bool :=
  List.isSuffixOf post.data s.data

/-- Python `s.startswith(pre)`, char-exact. -/
def pyStartsWith (s pre : String) : Bool :=
  List.isPrefixOf pre.data s.data

/-! ## Submodule expansion (`_extend_with_submodules`) -/

/-- Python `str.split(c)` for a single-character separator. -/
def splitOnChar (c : Char) : List Char → List (List Char)
  | [] => [[]]
  | a :: as =>
    if a = c then [] :: splitOnChar c as
    else
      match splitOnChar c as with
      | [] => [[a]]
      | p :: ps => (a :: p) :: ps

/-- Python `'.'.join(parts)`. -/
def joinDots : List (List Char) → List Char
  | [] => []
  | [p] => p
  | p :: ps => p ++ '.' :: joinDots ps

/-- The inner loop of `_extend_with_submodules` for one module name:
`{'.'.join(parts[:i]) | 1 ≤ i ≤ len(parts)}`. -/
def submodulePrefixes (m : String) : Finset String :=
  ((List.range (splitOnChar '.' m.data).length).map
    (fun i => (⟨joinDots ((splitOnChar '.' m.data).take (i + 1))⟩ : String))).toFinset

/-- `_extend_with_submodules` over the visitor's module entries; a `None`
entry raises (`None.split('.')` is an `AttributeError`), modelled as
`.error ()`. -/
def _extend_with_submodules : List (Option String) → Except Unit (Finset String)
  | [] => .ok ∅
  | none :: _ => .error ()
  | some m :: rest =>
    (_extend_with_submodules rest).map (fun s => submodulePrefixes m ∪ s)

/-! ## Module resolver (`_get_modules_filenames`) -/

/-- `os.path.join(a, b)` for POSIX paths. -/
def joinPath (a b : String) : String :=
  if pyStartsWith b "/" then b
  else if a = "" ∨ pyEndsWith a "/" then a ++ b
  else a ++ "/" ++ b

/-- `module.replace('.', os.sep)`. -/
def moduleToPath (m : String) : String :=
  ⟨m.data.map (fun c => if c = '.' then '/' else c)⟩

/-- `_get_modules_filenames`: per candidate module, try
`<start>/<path>.py`, then `<start>/<path>/__init__.py`, else drop it; the
filesystem is abstracted by the predicate `ex` (`os.path.exists`). -/
def _get_modules_filenames (ex : String → Bool) (modules : List String)
    (start_path : String) : List String :=
  match modules with
  | [] => []
  | m :: rest =>
    let mp := moduleToPath m
    let p1 := joinPath start_path (mp ++ ".py")
    if ex p1 then p1 :: _get_modules_filenames ex rest start_path
    else
      let p2 := joinPath (joinPath start_path mp) "__init__.py"
      if ex p2 then p2 :: _get_modules_filenames ex rest start_path
      else _get_modules_filenames ex rest start_path

/-- `python_dependencies` after a successful read and parse: run the
visitor on the parsed body, expand submodules (which may raise on a
`None` module entry), resolve them against the filesystem, and return
`set(visitor.filenames + modules_filenames)`. -/
def python_dependencies (functions : List CallPattern) (stmts : List Stmt)
    (ex : String → Bool) (start_path : String) : Except Unit (Finset String) :=
  let visitor := runVisitor functions stmts
  match _extend_with_submodules visitor.modules with
  | .error e => .error e
  | .ok mods =>
    .ok (visitor.filenames.toFinset ∪
      (_get_modules_filenames ex (mods.sort (· ≤ ·)) start_path).toFinset)

/-! ## Template include scanner (`html_dependencies`) -/

/-- Scan the `([^\x22]+)\x22` tail of the include regex at the current
position: the (nonempty) capture up to the closing quote and the number
of characters consumed including the quote. -/
def scanCapture (cs : List Char) : Option (List Char × Nat) :=
  let run := cs.takeWhile (fun c => c != '"')
  if run = [] then none
  else if run.length < cs.length then some (run, run.length + 1)
  else none

/-- `HTML_INCLUDE_RE.findall(content)`: all non-overlapping matches of
`file="([^"]+)"`, scanning left to right.  Fuel bounds the recursion; every
step shrinks the scanned list, so the fuel used by `findIncludesAux` never
runs out. -/
def findIncludesFuel : Nat → List Char → List String
  | 0, _ => []
  | _ + 1, [] => []
  | fuel + 1, c :: rest =>
    if (c :: rest).take 6 = ['f', 'i', 'l', 'e', '=', '"'] then
      match scanCapture (rest.drop 5) with
      | some (cap, n) =>
        (⟨cap⟩ : String) :: findIncludesFuel fuel ((rest.drop 5).drop n)
      | none => findIncludesFuel fuel rest
    else findIncludesFuel fuel rest

/-- The include scan with sufficient fuel. -/
def findIncludesAux (cs : List Char) : List String :=
  findIncludesFuel cs.length cs

/-- `os.path.dirname` for POSIX paths. -/
def dirname (p : String) : String :=
  let cs := p.data
  let tailLen := (cs.reverse.takeWhile (fun c => c != '/')).length
  let head := cs.take (cs.length - tailLen)
  if head.isEmpty || head.all (fun c => c == '/') then ⟨head⟩
  else ⟨(head.reverse.dropWhile (fun c => c == '/')).reverse⟩

/-- Python `s.strip(chars)`: remove characters of `chars` from both ends. -/
def pyStrip (chars : String) (s : String) : String :=
  ⟨((s.data.dropWhile (fun c => chars.data.contains c)).reverse.dropWhile
      (fun c => chars.data.contains c)).reverse⟩

/-- The component-processing loop of `posixpath.normpath` (accumulator is
kept reversed). -/
def normComps (initialSlashes : Nat) : List String → List String → List String
  | acc, [] => acc.reverse
  | acc, comp :: rest =>
    if comp = "" ∨ comp = "." then normComps initialSlashes acc rest
    else if comp ≠ ".." ∨ (initialSlashes = 0 ∧ acc = []) ∨ acc.head? = some ".." then
      normComps initialSlashes (comp :: acc) rest
    else
      normComps initialSlashes acc.tail rest

/-- `posixpath.normpath`: collapse `//`, `.` and `..` lexically, keeping
a double (but not triple) leading slash. -/
def normpath (p : String) : String :=
  if p = "" then "."
  else
    let initialSlashes : Nat :=
      if pyStartsWith p "//" ∧ ¬pyStartsWith p "///" then 2
      else if pyStartsWith p "/" then 1
      else 0
    let comps := (splitOnChar '/' p.data).map (fun cs => (⟨cs⟩ : String))
    let joined := String.intercalate "/" (normComps initialSlashes [] comps)
    let res : String := ⟨List.replicate initialSlashes '/' ++ joined.data⟩
    if res = "" then "." else res

/-- The per-include normalization of `html_dependencies`: includes
starting with `..` resolve against the including file's directory and are
normalized; all others are stripped of slashes at both ends (Python's
`include.strip('/')`) and joined to the template root. -/
def normalizeInclude (filename template_path inc : String) : String :=
  if pyStartsWith inc ".." then
    normpath (joinPath (dirname filename) inc)
  else
    joinPath template_path (pyStrip "/" inc)

/-- `html_dependencies` after a successful read: extract and normalize all
includes of the file's content. -/
def html_dependencies (content filename template_path : String) : Finset String :=
  ((findIncludesAux content.data).map (normalizeInclude filename template_path)).toFinset

/-! ## Dependency graph builder (`transitive_dependencies`) -/

/-- The suffix dispatch of the builder loop: `.py` files go to the source
analyzer, `.html` files to the template scanner, anything else is an
opaque leaf depending only on itself.  The two analyzers are abstracted
as oracles that may fail (I/O or parse errors). -/
def classify {ε : Type} (py html : String → Except ε (Finset String)) (f : String) :
    Except ε (Finset String) :=
  if pyEndsWith f ".py" then py f
  else if pyEndsWith f ".html" then html f
  else .ok {f}

/-- The `while pending_filenames:` loop of `transitive_dependencies`:
pop a filename (`pick` models the arbitrary order of `set.pop`), mark it
processed, record its direct dependencies (aborting on analyzer failure),
and enqueue the dependencies not yet processed.  Fuel models the a priori
unbounded discovery loop; `none` means the run did not complete within
the given fuel. -/
def buildLoop {ε : Type} (pick : Finset String → String)
    (py html : String → Except ε (Finset String)) :
    Nat → List (String × Finset String) → Finset String → Finset String →
    Option (Except ε (List (String × Finset String)))
  | 0, dm, _, pend => if pend = ∅ then some (.ok dm) else none
  | fuel + 1, dm, proc, pend =>
    if pend = ∅ then some (.ok dm)
    else
      let f := pick pend
      let proc2 := insert f proc
      match classify py html f with
      | .error e => some (.error e)
      | .ok d =>
        buildLoop pick py html fuel (dm ++ [(f, d)]) proc2 ((pend.erase f) ∪ (d \ proc2))

/-- `transitive_dependencies`: build the dependency map from the starting
filenames, then run `_reachable` on it; analyzer failures propagate. -/
def transitive_dependencies {ε : Type} (pick : Finset String → String)
    (py html : String → Except ε (Finset String)) (fuel : Nat)
    (filenames : Finset String) : Option (Except ε RRes) :=
  match buildLoop pick py html fuel [] ∅ filenames with
  | none => none
  | some (.error e) => some (.error e)
  | some (.ok dm) => some (.ok (_reachable dm))

/-! ## Definitions taken from the specification's wording (for refinement
comparisons against the code) -/

/-- Modelled from the spec (claim C3's wording): use the FIRST
glob-matching pattern only; its resolved argument yields a filename
exactly when it is a string literal. -/
def claimExtract (functions : List CallPattern) (function_name : String)
    (args : List PExpr) (kws : List (String × PExpr)) : Option String :=
  match functions.find? (fun cp => fnmatch function_name cp.pat) with
  | none => none
  | some cp =>
    match resolveArg cp.sel args kws with
    | some (.str s) => some (applyPost cp.post s)
    | _ => none

/-- Modelled from the spec (claim C3's wording): record the filename from
a call whenever the first glob-matching pattern's argument is a string
literal. -/
def claimVisitCall (functions : List CallPattern) (node : CallNode)
    (filenames : List String) : List String :=
  match calleeName node.callee with
  | none => filenames
  | some fn =>
    match claimExtract functions fn node.args node.keywords with
    | some s => filenames ++ [s]
    | none => filenames

/-- Modelled from the spec (claim C5's wording): per candidate, the first
existing of `<base>/<dots-as-separators>.py` and
`<base>/<dots-as-separators>/__init__.py`, else nothing. -/
def resolveCandidate (ex : String → Bool) (start_path m : String) : Option String :=
  let p1 := joinPath start_path (moduleToPath m ++ ".py")
  if ex p1 then some p1
  else
    let p2 := joinPath (joinPath start_path (moduleToPath m)) "__init__.py"
    if ex p2 then some p2 else none

/-- Modelled from the spec (claim C6's wording): non-parent-relative
includes are stripped of LEADING path separators only, then joined to the
template root. -/
def claimNormalizeInclude (filename template_path inc : String) : String :=
  if pyStartsWith inc ".." then
    normpath (joinPath (dirname filename) inc)
  else
    joinPath template_path ⟨inc.data.dropWhile (fun c => c = '/')⟩

/-- The amended claim C6's wording: non-parent-relative includes are
stripped of leading AND trailing path separators, then joined to the
template root. -/
def specNormalizeInclude (filename template_path inc : String) : String :=
  if pyStartsWith inc ".." then
    normpath (joinPath (dirname filename) inc)
  else
    joinPath template_path
      ⟨((inc.data.dropWhile (fun c => c = '/')).reverse.dropWhile (fun c => c = '/')).reverse⟩

/-- A concrete pop choice for witness runs over `{"c.txt"}`. -/
def pickC : Finset String → String := fun _ => "c.txt"

/-- A concrete pop choice for witness runs over `{"a.py"}`. -/
def pickA : Finset String → String := fun _ => "a.py"


/-! ## Concrete example inputs used by witnesses and counterexamples -/

/-- A closed cyclic dependency graph. -/
def gCyc : Graph :=
  [("a.py", {"b.py"}), ("b.py", {"a.py", "c.txt"}), ("c.txt", {"c.txt"})]

/-- A graph with a dangling dependency target (`"b.py"` is not a key). -/
def gDangling : Graph := [("a.py", {"b.py"})]

/-- Decidable equality for `Except` results, so concrete runs can be
checked by `decide`. -/
instance {e a : Type} [DecidableEq e] [DecidableEq a] : DecidableEq (Except e a) := fun x y =>
  match x, y with
  | .error u, .error v =>
    if h : u = v then isTrue (by rw [h]) else isFalse (by intro hc; cases hc; exact h rfl)
  | .ok u, .ok v =>
    if h : u = v then isTrue (by rw [h]) else isFalse (by intro hc; cases hc; exact h rfl)
  | .error _, .ok _ => isFalse (by intro hc; cases hc)
  | .ok _, .error _ => isFalse (by intro hc; cases hc)

/-- The pattern configuration of the C3 counterexample: the first pattern
glob-matches but selects an out-of-range argument. -/
def patsSkip : List CallPattern :=
  [⟨"open", ArgSel.pos 2, none⟩, ⟨"open", ArgSel.pos 0, none⟩]

/-- A single-pattern configuration selecting the first positional argument. -/
def patsOne : List CallPattern := [⟨"open", ArgSel.pos 0, none⟩]

/-- The call `open("a.txt")`. -/
def callATxt : CallNode := ⟨PCallee.name "open", [PExpr.str "a.txt"], []⟩

/-- The call `open("")`, whose argument is an empty string literal. -/
def callEmpty : CallNode := ⟨PCallee.name "open", [PExpr.str ""], []⟩

/-- An analyzer oracle that always fails (models a read or parse error). -/
def pyFail : String → Except String (Finset String) := fun _ => .error "boom"

/-- An analyzer oracle that always succeeds with no dependencies. -/
def htmlOk : String → Except String (Finset String) := fun _ => .ok ∅

/-! ## Helper lemmas: the reachability engine -/

theorem valsUnion_cons (p : String × Finset String) (g : Graph) :
    valsUnion (p :: g) = p.2 ∪ valsUnion g := rfl

theorem mem_valsUnion (g : Graph) (p : String × Finset String) (hp : p ∈ g) :
    p.2 ⊆ valsUnion g := by
  induction g with
  | nil => simp at hp
  | cons q rest ih =>
    rw [valsUnion_cons]
    rcases List.mem_cons.mp hp with rfl | hmem
    · exact Finset.subset_union_left
    · exact (ih hmem).trans Finset.subset_union_right

theorem lookupG_sub (g : Graph) (n : String) (d : Finset String)
    (h : lookupG g n = some d) : d ⊆ valsUnion g := by
  unfold lookupG at h
  cases hf : g.find? (fun p => p.1 == n) with
  | none => rw [hf] at h; simp at h
  | some p =>
    rw [hf] at h
    simp only [Option.map_some', Option.some.injEq] at h
    exact h ▸ mem_valsUnion g p (List.mem_of_find?_eq_some hf)

theorem lookupG_mem_keys (g : Graph) (n : String) (d : Finset String)
    (h : lookupG g n = some d) : n ∈ keysG g := by
  unfold lookupG at h
  cases hf : g.find? (fun p => p.1 == n) with
  | none => rw [hf] at h; simp at h
  | some p =>
    have hp : p ∈ g := List.mem_of_find?_eq_some hf
    have heq : p.1 = n := by
      have := List.find?_some hf
      simpa using this
    exact heq ▸ List.mem_map_of_mem (·.1) hp

theorem lookupG_isSome_of_mem (g : Graph) (n : String) (h : n ∈ keysG g) :
    ∃ d, lookupG g n = some d := by
  unfold keysG at h
  rcases List.mem_map.mp h with ⟨p, hp, hpn⟩
  have hs : (g.find? (fun q => q.1 == n)).isSome :=
    List.find?_isSome.mpr ⟨p, hp, by simp [hpn]⟩
  rcases Option.isSome_iff_exists.mp hs with ⟨q, hq⟩
  exact ⟨q.2, by unfold lookupG; rw [hq]; rfl⟩

theorem mem_valsUnion_iff (g : Graph) (x : String) :
    x ∈ valsUnion g ↔ ∃ p ∈ g, x ∈ p.2 := by
  induction g with
  | nil => simp [valsUnion]
  | cons q rest ih =>
    rw [valsUnion_cons]
    simp [ih]

theorem valsUnion_sub_keys (g : Graph) (h : ClosedG g) :
    valsUnion g ⊆ (keysG g).toFinset := by
  intro x hx
  rcases (mem_valsUnion_iff g x).mp hx with ⟨p, hp, hxp⟩
  exact h p hp hxp

theorem unionDeps_eq_none_iff (g : Graph) (l : List String) :
    unionDeps g l = none ↔ ∃ n ∈ l, lookupG g n = none := by
  induction l with
  | nil => simp [unionDeps]
  | cons n ns ih =>
    rw [unionDeps]
    cases hl : lookupG g n with
    | none =>
      constructor
      · intro _; exact ⟨n, List.mem_cons_self n ns, hl⟩
      · intro _
        cases hu : unionDeps g ns <;> rfl
    | some d =>
      cases hu : unionDeps g ns with
      | none =>
        constructor
        · intro _
          rcases ih.mp hu with ⟨m, hm, hmn⟩
          exact ⟨m, List.mem_cons_of_mem _ hm, hmn⟩
        · intro _; rfl
      | some u =>
        constructor
        · intro h; cases h
        · rintro ⟨m, hm, hmn⟩
          rcases List.mem_cons.mp hm with rfl | hm'
          · rw [hl] at hmn; cases hmn
          · have := ih.mpr ⟨m, hm', hmn⟩
            rw [hu] at this; cases this

theorem unionDeps_some_of (g : Graph) (l : List String)
    (h : ∀ n ∈ l, ∃ d, lookupG g n = some d) : ∃ u, unionDeps g l = some u := by
  induction l with
  | nil => exact ⟨∅, rfl⟩
  | cons n ns ih =>
    rcases h n (List.mem_cons_self n ns) with ⟨d, hd⟩
    rcases ih (fun m hm => h m (List.mem_cons_of_mem _ hm)) with ⟨u, hu⟩
    exact ⟨d ∪ u, by rw [unionDeps, hd, hu]⟩

theorem unionDeps_mem_iff (g : Graph) (l : List String) (u : Finset String)
    (h : unionDeps g l = some u) :
    ∀ x, x ∈ u ↔ ∃ n ∈ l, ∃ d, lookupG g n = some d ∧ x ∈ d := by
  induction l generalizing u with
  | nil =>
    intro x
    rw [unionDeps] at h
    injection h with h
    subst h
    simp
  | cons n ns ih =>
    intro x
    rw [unionDeps] at h
    cases hl : lookupG g n with
    | none =>
      rw [hl] at h
      cases hu : unionDeps g ns <;> rw [hu] at h <;> cases h
    | some d =>
      cases hu : unionDeps g ns with
      | none => rw [hl, hu] at h; cases h
      | some u' =>
        rw [hl, hu] at h
        injection h with h
        subst h
        constructor
        · intro hx
          rcases Finset.mem_union.mp hx with hx | hx
          · exact ⟨n, List.mem_cons_self n ns, d, hl, hx⟩
          · rcases (ih u' hu x).mp hx with ⟨m, hm, d', hd', hx'⟩
            exact ⟨m, List.mem_cons_of_mem _ hm, d', hd', hx'⟩
        · rintro ⟨m, hm, d', hd', hx'⟩
          rcases List.mem_cons.mp hm with rfl | hm'
          · rw [hl] at hd'
            injection hd' with hd'
            subst hd'
            exact Finset.mem_union_left _ hx'
          · exact Finset.mem_union_right _ ((ih u' hu x).mpr ⟨m, hm', d', hd', hx'⟩)

theorem unionDeps_sub (g : Graph) (l : List String) (u : Finset String)
    (h : unionDeps g l = some u) : u ⊆ valsUnion g := by
  intro x hx
  rcases (unionDeps_mem_iff g l u h x).mp hx with ⟨m, _, d, hd, hx'⟩
  exact lookupG_sub g m d hd hx'

theorem closureLoop_empty (enum : Finset String → List String) (g : Graph)
    (fuel : Nat) (reach : Finset String) :
    closureLoop enum g fuel reach ∅ = CRes.done reach := by
  cases fuel <;> simp [closureLoop]

theorem closureLoop_zero (enum : Finset String → List String) (g : Graph)
    (reach latest : Finset String) (hl : latest ≠ ∅) :
    closureLoop enum g 0 reach latest = CRes.fuelOut := by
  simp [closureLoop, hl]

theorem closureLoop_succ_none (enum : Finset String → List String) (g : Graph)
    (f : Nat) (reach latest : Finset String) (hl : latest ≠ ∅)
    (hu : unionDeps g (enum latest) = none) :
    closureLoop enum g (f + 1) reach latest = CRes.keyError := by
  simp [closureLoop, hl, hu]

theorem closureLoop_succ_some (enum : Finset String → List String) (g : Graph)
    (f : Nat) (reach latest u : Finset String) (hl : latest ≠ ∅)
    (hu : unionDeps g (enum latest) = some u) :
    closureLoop enum g (f + 1) reach latest =
      closureLoop enum g f (reach ∪ (u \ reach)) (u \ reach) := by
  simp [closureLoop, hl, hu]

theorem closureLoop_not_fuelOut (enum : Finset String → List String) (g : Graph) :
    ∀ fuel reach latest, (univG g \ reach).card + 2 ≤ fuel →
    closureLoop enum g fuel reach latest ≠ CRes.fuelOut := by
  intro fuel
  induction fuel with
  | zero => intro reach latest h; omega
  | succ f ih =>
    intro reach latest h
    by_cases hl : latest = ∅
    · rw [hl, closureLoop_empty]; simp
    · cases hu : unionDeps g (enum latest) with
      | none => rw [closureLoop_succ_none _ _ _ _ _ hl hu]; simp
      | some u =>
        rw [closureLoop_succ_some _ _ _ _ _ _ hl hu]
        by_cases hnew : u \ reach = ∅
        · rw [hnew, closureLoop_empty]; simp
        · apply ih
          have hsubU : u \ reach ⊆ univG g := by
            intro x hx
            exact Finset.mem_union_right _
              (unionDeps_sub g _ u hu (Finset.mem_sdiff.mp hx).1)
          have hstrict :
              (univG g \ (reach ∪ (u \ reach))).card < (univG g \ reach).card := by
            apply Finset.card_lt_card
            rw [Finset.ssubset_iff_of_subset
              (Finset.sdiff_subset_sdiff (Finset.Subset.refl _) Finset.subset_union_left)]
            rcases Finset.nonempty_iff_ne_empty.mpr hnew with ⟨x, hx⟩
            refine ⟨x, Finset.mem_sdiff.mpr ⟨hsubU hx, (Finset.mem_sdiff.mp hx).2⟩, ?_⟩
            intro hcontra
            exact (Finset.mem_sdiff.mp hcontra).2 (Finset.mem_union_right _ hx)
          omega

theorem closureLoop_sound (enum : Finset String → List String) (g : Graph)
    (henum : ∀ s : Finset String, ∀ x, x ∈ enum s ↔ x ∈ s) (n : String) :
    ∀ fuel reach latest r, latest ⊆ reach → (∀ x ∈ reach, Reaches g n x) →
    closureLoop enum g fuel reach latest = CRes.done r →
    ∀ x ∈ r, Reaches g n x := by
  intro fuel
  induction fuel with
  | zero =>
    intro reach latest r _ hreach hdone
    rw [closureLoop] at hdone
    by_cases hl : latest = ∅
    · simp only [hl, if_true, CRes.done.injEq] at hdone
      exact fun x hx => hreach x (hdone ▸ hx)
    · simp [hl] at hdone
  | succ f ih =>
    intro reach latest r hsub hreach hdone
    by_cases hl : latest = ∅
    · rw [hl, closureLoop_empty] at hdone
      injection hdone with h
      subst h
      exact hreach
    · cases hu : unionDeps g (enum latest) with
      | none => rw [closureLoop_succ_none _ _ _ _ _ hl hu] at hdone; cases hdone
      | some u =>
        rw [closureLoop_succ_some _ _ _ _ _ _ hl hu] at hdone
        refine ih _ _ r Finset.subset_union_right ?_ hdone
        intro x hx
        rcases Finset.mem_union.mp hx with hx | hx
        · exact hreach x hx
        · rcases (unionDeps_mem_iff g _ u hu x).mp (Finset.mem_sdiff.mp hx).1 with
            ⟨m, hm, d, hd, hxd⟩
          exact Relation.ReflTransGen.tail
            (hreach m (hsub ((henum latest m).mp hm))) ⟨d, hd, hxd⟩

theorem closureLoop_closed_inv (enum : Finset String → List String) (g : Graph)
    (henum : ∀ s : Finset String, ∀ x, x ∈ enum s ↔ x ∈ s) :
    ∀ fuel reach latest r, latest ⊆ reach →
    (∀ x ∈ reach, x ∉ latest → ∀ d, lookupG g x = some d → d ⊆ reach) →
    closureLoop enum g fuel reach latest = CRes.done r →
    reach ⊆ r ∧ ∀ x ∈ r, ∀ d, lookupG g x = some d → d ⊆ r := by
  intro fuel
  induction fuel with
  | zero =>
    intro reach latest r _ hinv hdone
    rw [closureLoop] at hdone
    by_cases hl : latest = ∅
    · simp only [hl, if_true, CRes.done.injEq] at hdone
      subst hdone
      exact ⟨Finset.Subset.refl _,
        fun x hx d hd => hinv x hx (hl ▸ Finset.not_mem_empty x) d hd⟩
    · simp [hl] at hdone
  | succ f ih =>
    intro reach latest r hsub hinv hdone
    by_cases hl : latest = ∅
    · rw [hl, closureLoop_empty] at hdone
      injection hdone with h
      subst h
      exact ⟨Finset.Subset.refl _,
        fun x hx d hd => hinv x hx (hl ▸ Finset.not_mem_empty x) d hd⟩
    · cases hu : unionDeps g (enum latest) with
      | none => rw [closureLoop_succ_none _ _ _ _ _ hl hu] at hdone; cases hdone
      | some u =>
        rw [closureLoop_succ_some _ _ _ _ _ _ hl hu] at hdone
        have hnewinv : ∀ x ∈ reach ∪ (u \ reach), x ∉ u \ reach →
            ∀ d, lookupG g x = some d → d ⊆ reach ∪ (u \ reach) := by
          intro x hx hnx d hd y hy
          rcases Finset.mem_union.mp hx with hx' | hx'
          · by_cases hxl : x ∈ latest
            · have hyu : y ∈ u := (unionDeps_mem_iff g _ u hu y).mpr
                ⟨x, (henum latest x).mpr hxl, d, hd, hy⟩
              by_cases hyr : y ∈ reach
              · exact Finset.mem_union_left _ hyr
              · exact Finset.mem_union_right _ (Finset.mem_sdiff.mpr ⟨hyu, hyr⟩)
            · exact Finset.mem_union_left _ (hinv x hx' hxl d hd hy)
          · exact absurd hx' hnx
        have hstep := ih _ _ r Finset.subset_union_right hnewinv hdone
        exact ⟨Finset.Subset.trans Finset.subset_union_left hstep.1, hstep.2⟩

theorem closureLoop_ne_keyError_of_closed (enum : Finset String → List String)
    (g : Graph) (henum : ∀ s : Finset String, ∀ x, x ∈ enum s ↔ x ∈ s)
    (hcl : ClosedG g) :
    ∀ fuel reach latest, latest ⊆ (keysG g).toFinset →
    closureLoop enum g fuel reach latest ≠ CRes.keyError := by
  intro fuel
  induction fuel with
  | zero =>
    intro reach latest _
    by_cases hl : latest = ∅
    · rw [hl, closureLoop_empty]
      simp
    · rw [closureLoop_zero _ _ _ _ hl]
      simp
  | succ f ih =>
    intro reach latest hsub
    by_cases hl : latest = ∅
    · rw [hl, closureLoop_empty]; simp
    · have hsome : ∀ n ∈ enum latest, ∃ d, lookupG g n = some d := by
        intro n hn
        exact lookupG_isSome_of_mem g n
          (List.mem_toFinset.mp (hsub ((henum latest n).mp hn)))
      rcases unionDeps_some_of g _ hsome with ⟨u, hu⟩
      rw [closureLoop_succ_some _ _ _ _ _ _ hl hu]
      apply ih
      intro x hx
      exact valsUnion_sub_keys g hcl (unionDeps_sub g _ u hu (Finset.mem_sdiff.mp hx).1)

theorem closureLoop_spec_of_closed (enum : Finset String → List String) (g : Graph)
    (henum : ∀ s : Finset String, ∀ x, x ∈ enum s ↔ x ∈ s) (hcl : ClosedG g)
    (n : String) (d : Finset String) (hd : lookupG g n = some d) :
    ∃ r, closureLoop enum g ((univG g).card + 2) (insert n d) (insert n d) =
        CRes.done r ∧ ∀ x, x ∈ r ↔ Reaches g n x := by
  have hfuel : (univG g \ insert n d).card + 2 ≤ (univG g).card + 2 := by
    have := Finset.card_le_card (Finset.sdiff_subset (s := univG g) (t := insert n d))
    omega
  have hlat : insert n d ⊆ (keysG g).toFinset := by
    intro x hx
    rcases Finset.mem_insert.mp hx with rfl | hx
    · exact List.mem_toFinset.mpr (lookupG_mem_keys g x d hd)
    · exact valsUnion_sub_keys g hcl (lookupG_sub g n d hd hx)
  cases hres : closureLoop enum g ((univG g).card + 2) (insert n d) (insert n d) with
  | keyError =>
    exact absurd hres (closureLoop_ne_keyError_of_closed enum g henum hcl _ _ _ hlat)
  | fuelOut => exact absurd hres (closureLoop_not_fuelOut enum g _ _ _ hfuel)
  | done r =>
    refine ⟨r, rfl, ?_⟩
    have hinit : ∀ x ∈ insert n d, Reaches g n x := by
      intro x hx
      rcases Finset.mem_insert.mp hx with rfl | hx
      · exact Relation.ReflTransGen.refl
      · exact Relation.ReflTransGen.single ⟨d, hd, hx⟩
    have hsound := closureLoop_sound enum g henum n _ _ _ r
      (Finset.Subset.refl _) hinit hres
    have hclosedr := closureLoop_closed_inv enum g henum _ _ _ r
      (Finset.Subset.refl _) (fun x hx hnx _ _ => absurd hx hnx) hres
    intro x
    constructor
    · exact hsound x
    · intro hx
      have hn_r : n ∈ r := hclosedr.1 (Finset.mem_insert_self n d)
      unfold Reaches at hx
      induction hx with
      | refl => exact hn_r
      | tail _ e ihx =>
        rcases e with ⟨d', hd', hbd⟩
        exact hclosedr.2 _ ihx d' hd' hbd

theorem reachableAux_spec (enum : Finset String → List String) (g : Graph)
    (henum : ∀ s : Finset String, ∀ x, x ∈ enum s ↔ x ∈ s) (hcl : ClosedG g) :
    ∀ l, (∀ n ∈ l, n ∈ keysG g) →
    ∃ m, reachableAux enum g ((univG g).card + 2) l = RRes.done m ∧
      m.map Prod.fst = l ∧ ∀ p ∈ m, ∀ x, x ∈ p.2 ↔ Reaches g p.1 x := by
  intro l
  induction l with
  | nil => exact fun _ => ⟨[], rfl, rfl, by simp⟩
  | cons n rest ih =>
    intro hmem
    rcases lookupG_isSome_of_mem g n (hmem n (List.mem_cons_self n rest)) with ⟨d, hd⟩
    rcases closureLoop_spec_of_closed enum g henum hcl n d hd with ⟨r, hr, hriff⟩
    rcases ih (fun m hm => hmem m (List.mem_cons_of_mem _ hm)) with ⟨m, hm, hmkeys, hmspec⟩
    refine ⟨(n, r) :: m, ?_, ?_, ?_⟩
    · simp only [reachableAux, hd, hr, hm]
    · simp [hmkeys]
    · intro p hp
      rcases List.mem_cons.mp hp with rfl | hp
      · exact hriff
      · exact hmspec p hp

/-- C1: for every finite dependency graph (possibly cyclic) in which every
dependency value is also a key, `_reachable` completes and maps each node `n`
to exactly the set of nodes reachable from `n` via zero or more edges; in
particular `n` is always a member of its own reachable set, even for nodes
with no outgoing edges or on a cycle. -/
theorem C1_reachable_exact (g : Graph) (hclosed : ClosedG g) :
    ∃ m, _reachable g = RRes.done m ∧ m.map Prod.fst = keysG g ∧
      ∀ p ∈ m, p.1 ∈ p.2 ∧ ∀ x, x ∈ p.2 ↔ Reaches g p.1 x := by
  have henum : ∀ s : Finset String, ∀ x, x ∈ s.sort (· ≤ ·) ↔ x ∈ s := by
    intro s x
    simp
  rcases reachableAux_spec (fun s => s.sort (· ≤ ·)) g henum hclosed (keysG g)
    (fun n hn => hn) with ⟨m, hm, hk, hs⟩
  refine ⟨m, ?_, hk, fun p hp =>
    ⟨(hs p hp p.1).mpr Relation.ReflTransGen.refl, hs p hp⟩⟩
  unfold _reachable reachableWithEnum
  exact hm

/-- Witness for C1 on a concrete cyclic closed graph. -/
theorem C1_reachable_exact_witness : ClosedG gCyc ∧
    (∃ m, _reachable gCyc = RRes.done m ∧ m.map Prod.fst = keysG gCyc ∧
      ∀ p ∈ m, p.1 ∈ p.2 ∧ ∀ x, x ∈ p.2 ↔ Reaches gCyc p.1 x) :=
  ⟨by decide, C1_reachable_exact gCyc (by decide)⟩

theorem unionDeps_eq_of_mem_iff (g : Graph) (l1 l2 : List String)
    (h : ∀ x, x ∈ l1 ↔ x ∈ l2) : unionDeps g l1 = unionDeps g l2 := by
  cases h1 : unionDeps g l1 with
  | none =>
    rcases (unionDeps_eq_none_iff g l1).mp h1 with ⟨n, hn, hln⟩
    exact ((unionDeps_eq_none_iff g l2).mpr ⟨n, (h n).mp hn, hln⟩).symm
  | some u1 =>
    cases h2 : unionDeps g l2 with
    | none =>
      rcases (unionDeps_eq_none_iff g l2).mp h2 with ⟨n, hn, hln⟩
      rw [← h1]
      exact (unionDeps_eq_none_iff g l1).mpr ⟨n, (h n).mpr hn, hln⟩
    | some u2 =>
      congr 1
      apply Finset.ext
      intro x
      rw [unionDeps_mem_iff g l1 u1 h1 x, unionDeps_mem_iff g l2 u2 h2 x]
      constructor
      · rintro ⟨n, hn, rest⟩
        exact ⟨n, (h n).mp hn, rest⟩
      · rintro ⟨n, hn, rest⟩
        exact ⟨n, (h n).mpr hn, rest⟩

theorem closureLoop_enum_congr (enum1 enum2 : Finset String → List String)
    (g : Graph) (h1 : ∀ s : Finset String, ∀ x, x ∈ enum1 s ↔ x ∈ s)
    (h2 : ∀ s : Finset String, ∀ x, x ∈ enum2 s ↔ x ∈ s) :
    ∀ fuel reach latest,
    closureLoop enum1 g fuel reach latest = closureLoop enum2 g fuel reach latest := by
  intro fuel
  induction fuel with
  | zero =>
    intro reach latest
    by_cases hl : latest = ∅
    · rw [hl, closureLoop_empty, closureLoop_empty]
    · rw [closureLoop_zero _ _ _ _ hl, closureLoop_zero _ _ _ _ hl]
  | succ f ih =>
    intro reach latest
    by_cases hl : latest = ∅
    · rw [hl, closureLoop_empty, closureLoop_empty]
    · have hu12 : unionDeps g (enum1 latest) = unionDeps g (enum2 latest) :=
        unionDeps_eq_of_mem_iff g _ _ (fun x => (h1 latest x).trans (h2 latest x).symm)
      cases hu : unionDeps g (enum1 latest) with
      | none =>
        rw [closureLoop_succ_none _ _ _ _ _ hl hu,
          closureLoop_succ_none _ _ _ _ _ hl (hu12.symm.trans hu)]
      | some u =>
        rw [closureLoop_succ_some _ _ _ _ _ _ hl hu,
          closureLoop_succ_some _ _ _ _ _ _ hl (hu12.symm.trans hu), ih]

theorem reachableAux_enum_congr (enum1 enum2 : Finset String → List String)
    (g : Graph) (h1 : ∀ s : Finset String, ∀ x, x ∈ enum1 s ↔ x ∈ s)
    (h2 : ∀ s : Finset String, ∀ x, x ∈ enum2 s ↔ x ∈ s) (fuel : Nat) :
    ∀ l, reachableAux enum1 g fuel l = reachableAux enum2 g fuel l := by
  intro l
  induction l with
  | nil => rfl
  | cons n rest ihl =>
    simp only [reachableAux, ihl, closureLoop_enum_congr enum1 enum2 g h1 h2 fuel]

/-- C8: for every dependency graph, recomputing reachability from the same
unchanged map yields identical results, whatever iteration order the two
runs use for Python's sets: the engine is deterministic and idempotent. -/
theorem C8_recompute_deterministic (enum1 enum2 : Finset String → List String)
    (h1 : ∀ s : Finset String, ∀ x, x ∈ enum1 s ↔ x ∈ s)
    (h2 : ∀ s : Finset String, ∀ x, x ∈ enum2 s ↔ x ∈ s) (g : Graph) :
    reachableWithEnum enum1 g = reachableWithEnum enum2 g := by
  unfold reachableWithEnum
  exact reachableAux_enum_congr enum1 enum2 g h1 h2 _ (keysG g)

/-- Witness for C8 on a concrete graph with two runs of the engine. -/
theorem C8_recompute_deterministic_witness :
    (∀ s : Finset String, ∀ x, x ∈ s.sort (· ≤ ·) ↔ x ∈ s) ∧
    reachableWithEnum (fun s => s.sort (· ≤ ·)) gCyc =
      reachableWithEnum (fun s => s.sort (· ≤ ·)) gCyc :=
  ⟨fun s x => by simp,
    C8_recompute_deterministic _ _ (fun s x => by simp) (fun s x => by simp) gCyc⟩

theorem reachableAux_keyError (enum : Finset String → List String) (g : Graph)
    (fuel : Nat) :
    ∀ l, (∀ n ∈ l, ∀ d, lookupG g n = some d →
        closureLoop enum g fuel (insert n d) (insert n d) ≠ CRes.fuelOut) →
    (∃ n ∈ l, lookupG g n = none ∨ ∀ d, lookupG g n = some d →
        closureLoop enum g fuel (insert n d) (insert n d) = CRes.keyError) →
    reachableAux enum g fuel l = RRes.keyError := by
  intro l
  induction l with
  | nil =>
    rintro _ ⟨n, hn, _⟩
    cases hn
  | cons m rest ih =>
    rintro hnf ⟨n, hn, hcase⟩
    cases hm : lookupG g m with
    | none => simp only [reachableAux, hm]
    | some d =>
      cases hloop : closureLoop enum g fuel (insert m d) (insert m d) with
      | keyError => simp only [reachableAux, hm, hloop]
      | fuelOut => exact absurd hloop (hnf m (List.mem_cons_self m rest) d hm)
      | done r =>
        have hnrest : n ∈ rest := by
          rcases List.mem_cons.mp hn with rfl | h
          · rcases hcase with hnone | hke
            · rw [hm] at hnone
              cases hnone
            · have := (hke d hm).symm.trans hloop
              cases this
          · exact h
        have hrest := ih (fun q hq => hnf q (List.mem_cons_of_mem _ hq)) ⟨n, hnrest, hcase⟩
        simp only [reachableAux, hm, hloop, hrest]

/-- C9: when `_reachable` is given a graph violating the closedness
guarantee (some dependency value is not a key), the computation raises a
`KeyError` instead of returning a result: the missing target is rejected,
not treated as a childless node. -/
theorem C9_missing_target_keyError (g : Graph)
    (h : ∃ k d v, lookupG g k = some d ∧ v ∈ d ∧ lookupG g v = none) :
    _reachable g = RRes.keyError := by
  rcases h with ⟨k, d, v, hk, hvd, hv⟩
  unfold _reachable reachableWithEnum
  apply reachableAux_keyError
  · intro n _ d' _
    apply closureLoop_not_fuelOut
    have := Finset.card_le_card (Finset.sdiff_subset (s := univG g) (t := insert n d'))
    omega
  · refine ⟨k, lookupG_mem_keys g k d hk, Or.inr ?_⟩
    intro d' hd'
    have hd'd : d' = d := by
      rw [hk] at hd'
      injection hd'.symm
    subst hd'd
    have hne : insert k d' ≠ (∅ : Finset String) := Finset.insert_ne_empty k d'
    have hunone : unionDeps g ((insert k d').sort (· ≤ ·)) = none := by
      apply (unionDeps_eq_none_iff g _).mpr
      refine ⟨v, ?_, hv⟩
      simp [Finset.mem_insert_of_mem hvd]
    exact closureLoop_succ_none _ _ _ _ _ hne hunone

/-- Witness for C9 on a concrete graph with a dangling target. -/
theorem C9_missing_target_keyError_witness :
    (lookupG gDangling "a.py" = some {"b.py"} ∧ "b.py" ∈ ({"b.py"} : Finset String) ∧
      lookupG gDangling "b.py" = none) ∧
    _reachable gDangling = RRes.keyError :=
  ⟨by decide, C9_missing_target_keyError gDangling ⟨"a.py", {"b.py"}, "b.py", by decide⟩⟩

/-! ## Helper lemmas: the dependency graph builder -/

theorem buildLoop_pend_empty {ε : Type} (pick : Finset String → String)
    (py html : String → Except ε (Finset String)) (fuel : Nat)
    (dm : List (String × Finset String)) (proc : Finset String) :
    buildLoop pick py html fuel dm proc ∅ = some (.ok dm) := by
  cases fuel <;> simp [buildLoop]

theorem buildLoop_zero {ε : Type} (pick : Finset String → String)
    (py html : String → Except ε (Finset String))
    (dm : List (String × Finset String)) (proc pend : Finset String)
    (h : pend ≠ ∅) :
    buildLoop pick py html 0 dm proc pend = none := by
  simp [buildLoop, h]

theorem buildLoop_succ_error {ε : Type} (pick : Finset String → String)
    (py html : String → Except ε (Finset String)) (f : Nat)
    (dm : List (String × Finset String)) (proc pend : Finset String) (e : ε)
    (h : pend ≠ ∅) (hc : classify py html (pick pend) = .error e) :
    buildLoop pick py html (f + 1) dm proc pend = some (.error e) := by
  simp [buildLoop, h, hc]

theorem buildLoop_succ_ok {ε : Type} (pick : Finset String → String)
    (py html : String → Except ε (Finset String)) (f : Nat)
    (dm : List (String × Finset String)) (proc pend : Finset String)
    (d : Finset String) (h : pend ≠ ∅)
    (hc : classify py html (pick pend) = .ok d) :
    buildLoop pick py html (f + 1) dm proc pend =
      buildLoop pick py html f (dm ++ [(pick pend, d)]) (insert (pick pend) proc)
        ((pend.erase (pick pend)) ∪ (d \ insert (pick pend) proc)) := by
  simp [buildLoop, h, hc]

theorem classify_leaf {ε : Type} (py html : String → Except ε (Finset String))
    (f : String) (hpy : ¬pyEndsWith f ".py") (hhtml : ¬pyEndsWith f ".html") :
    classify py html f = .ok {f} := by
  unfold classify
  simp [hpy, hhtml]

theorem buildLoop_inv {ε : Type} (pick : Finset String → String)
    (py html : String → Except ε (Finset String)) :
    ∀ fuel (dm : List (String × Finset String)) (proc pend : Finset String)
      (m : List (String × Finset String)),
    (keysG dm).toFinset = proc →
    (∀ p ∈ dm, p.2 ⊆ proc ∪ pend) →
    (∀ p ∈ dm, ¬pyEndsWith p.1 ".py" → ¬pyEndsWith p.1 ".html" → p.2 = {p.1}) →
    buildLoop pick py html fuel dm proc pend = some (.ok m) →
    ClosedG m ∧
      (∀ p ∈ m, ¬pyEndsWith p.1 ".py" → ¬pyEndsWith p.1 ".html" → p.2 = {p.1}) := by
  intro fuel
  induction fuel with
  | zero =>
    intro dm proc pend m hkeys hval hleaf hrun
    by_cases hp : pend = ∅
    · rw [hp, buildLoop_pend_empty] at hrun
      injection hrun with hrun
      injection hrun with hrun
      subst hrun
      refine ⟨?_, hleaf⟩
      intro p hp' x hx
      have := hval p hp' hx
      rw [hp] at this
      rw [← hkeys] at this
      simpa using this
    · rw [buildLoop_zero _ _ _ _ _ _ hp] at hrun
      cases hrun
  | succ f ih =>
    intro dm proc pend m hkeys hval hleaf hrun
    by_cases hp : pend = ∅
    · rw [hp, buildLoop_pend_empty] at hrun
      injection hrun with hrun
      injection hrun with hrun
      subst hrun
      refine ⟨?_, hleaf⟩
      intro p hp' x hx
      have := hval p hp' hx
      rw [hp] at this
      rw [← hkeys] at this
      simpa using this
    · cases hc : classify py html (pick pend) with
      | error e =>
        rw [buildLoop_succ_error _ _ _ _ _ _ _ _ hp hc] at hrun
        injection hrun with hrun
        cases hrun
      | ok d =>
        rw [buildLoop_succ_ok _ _ _ _ _ _ _ _ hp hc] at hrun
        refine ih _ _ _ m ?_ ?_ ?_ hrun
        · rw [← hkeys]
          unfold keysG
          simp [List.map_append]
          apply Finset.ext
          intro x
          simp [or_comm]
        · intro p hpm
          rcases List.mem_append.mp hpm with hpd | hpnew
          · refine (hval p hpd).trans ?_
            intro x hx
            rcases Finset.mem_union.mp hx with hx | hx
            · exact Finset.mem_union_left _ (Finset.mem_insert_of_mem hx)
            · by_cases hxf : x = pick pend
              · exact Finset.mem_union_left _ (hxf ▸ Finset.mem_insert_self _ _)
              · exact Finset.mem_union_right _
                  (Finset.mem_union_left _ (Finset.mem_erase.mpr ⟨hxf, hx⟩))
          · have : p = (pick pend, d) := by simpa using hpnew
            subst this
            intro x hx
            by_cases hxp : x ∈ insert (pick pend) proc
            · exact Finset.mem_union_left _ hxp
            · exact Finset.mem_union_right _
                (Finset.mem_union_right _ (Finset.mem_sdiff.mpr ⟨hx, hxp⟩))
        · intro p hpm hpy hhtml
          rcases List.mem_append.mp hpm with hpd | hpnew
          · exact hleaf p hpd hpy hhtml
          · have hpeq : p = (pick pend, d) := by simpa using hpnew
            subst hpeq
            have := (classify_leaf py html (pick pend) hpy hhtml).symm.trans hc
            injection this with h2
            exact h2.symm

/-- C2: whenever the builder loop of `transitive_dependencies` completes,
the dependency map it built is closed: every filename appearing in a
dependency value set also appears as a key; moreover any file that is
neither source- nor template-suffixed is an opaque leaf whose sole
dependency is itself. -/
theorem C2_builder_closed {ε : Type} (pick : Finset String → String)
    (py html : String → Except ε (Finset String)) (fuel : Nat)
    (start : Finset String) (m : List (String × Finset String))
    (hrun : buildLoop pick py html fuel [] ∅ start = some (.ok m)) :
    ClosedG m ∧
      (∀ p ∈ m, ¬pyEndsWith p.1 ".py" → ¬pyEndsWith p.1 ".html" → p.2 = {p.1}) := by
  refine buildLoop_inv pick py html fuel [] ∅ start m ?_ ?_ ?_ hrun
  · rfl
  · intro p hp
    cases hp
  · intro p hp
    cases hp

/-- Witness for C2 on a concrete completed run. -/
theorem C2_builder_closed_witness :
    buildLoop pickC pyFail htmlOk 2 [] ∅ {"c.txt"} =
      some (.ok [("c.txt", {"c.txt"})]) ∧
    (ClosedG [("c.txt", ({"c.txt"} : Finset String))] ∧
      (∀ p ∈ [("c.txt", ({"c.txt"} : Finset String))],
        ¬pyEndsWith p.1 ".py" → ¬pyEndsWith p.1 ".html" → p.2 = {p.1})) :=
  ⟨by decide, C2_builder_closed pickC pyFail htmlOk 2 {"c.txt"} _ (by decide)⟩

theorem buildLoop_ok_classified {ε : Type} (pick : Finset String → String)
    (py html : String → Except ε (Finset String)) :
    ∀ fuel (dm : List (String × Finset String)) (proc pend : Finset String) m,
    buildLoop pick py html fuel dm proc pend = some (.ok m) →
    ∀ p ∈ m, p ∈ dm ∨ classify py html p.1 = .ok p.2 := by
  intro fuel
  induction fuel with
  | zero =>
    intro dm proc pend m hrun p hp
    by_cases hpend : pend = ∅
    · rw [hpend, buildLoop_pend_empty] at hrun
      injection hrun with hrun
      injection hrun with hrun
      exact Or.inl (by rw [hrun]; exact hp)
    · rw [buildLoop_zero _ _ _ _ _ _ hpend] at hrun
      cases hrun
  | succ f ih =>
    intro dm proc pend m hrun p hp
    by_cases hpend : pend = ∅
    · rw [hpend, buildLoop_pend_empty] at hrun
      injection hrun with hrun
      injection hrun with hrun
      exact Or.inl (by rw [hrun]; exact hp)
    · cases hc : classify py html (pick pend) with
      | error e =>
        rw [buildLoop_succ_error _ _ _ _ _ _ _ _ hpend hc] at hrun
        injection hrun with hrun
        cases hrun
      | ok d =>
        rw [buildLoop_succ_ok _ _ _ _ _ _ _ _ hpend hc] at hrun
        rcases ih _ _ _ m hrun p hp with hin | hcls
        · rcases List.mem_append.mp hin with hin | hnew
          · exact Or.inl hin
          · have hpeq : p = (pick pend, d) := by simpa using hnew
            exact Or.inr (by rw [hpeq]; exact hc)
        · exact Or.inr hcls

/-- C4: if analyzing any file fails at any point during dependency-graph
construction, the builder aborts at once with exactly that error (no map is
returned), the error propagates unmodified through `transitive_dependencies`
to the caller, and conversely a completed run analyzed every recorded file
successfully. -/
theorem C4_abort_on_failure {ε : Type} (pick : Finset String → String)
    (py html : String → Except ε (Finset String)) :
    (∀ (f : Nat) (dm : List (String × Finset String)) (proc pend : Finset String)
      (e : ε), pend ≠ ∅ → classify py html (pick pend) = .error e →
      buildLoop pick py html (f + 1) dm proc pend = some (.error e)) ∧
    (∀ (fuel : Nat) (start : Finset String) (e : ε),
      buildLoop pick py html fuel [] ∅ start = some (.error e) →
      transitive_dependencies pick py html fuel start = some (.error e)) ∧
    (∀ (fuel : Nat) (start : Finset String) m,
      buildLoop pick py html fuel [] ∅ start = some (.ok m) →
      ∀ p ∈ m, classify py html p.1 = .ok p.2) := by
  refine ⟨?_, ?_, ?_⟩
  · intro f dm proc pend e hpend hc
    exact buildLoop_succ_error _ _ _ _ _ _ _ _ hpend hc
  · intro fuel start e hrun
    unfold transitive_dependencies
    rw [hrun]
  · intro fuel start m hrun p hp
    rcases buildLoop_ok_classified pick py html fuel [] ∅ start m hrun p hp with hin | hcls
    · cases hin
    · exact hcls

/-- Witness for C4: a failing source analyzer aborts a concrete run with its
exact error, while a concrete completed run classified every key. -/
theorem C4_abort_on_failure_witness :
    (({"a.py"} : Finset String) ≠ ∅ ∧
      classify pyFail htmlOk (pickA {"a.py"}) = .error "boom" ∧
      buildLoop pickA pyFail htmlOk 1 [] ∅ {"a.py"} = some (.error "boom")) ∧
    transitive_dependencies pickA pyFail htmlOk 1 {"a.py"} = some (.error "boom") ∧
    (buildLoop pickC pyFail htmlOk 2 [] ∅ {"c.txt"} = some (.ok [("c.txt", {"c.txt"})]) ∧
      ∀ p ∈ [("c.txt", ({"c.txt"} : Finset String))],
        classify pyFail htmlOk p.1 = .ok p.2) := by
  have hth := C4_abort_on_failure (ε := String) pickA pyFail htmlOk
  have hthC := C4_abort_on_failure (ε := String) pickC pyFail htmlOk
  refine ⟨⟨by decide, by decide,
    hth.1 0 [] ∅ {"a.py"} "boom" (by decide) (by decide)⟩, ?_, by decide, ?_⟩
  · exact hth.2.1 1 {"a.py"} "boom" (hth.1 0 [] ∅ {"a.py"} "boom" (by decide) (by decide))
  · exact hthC.2.2 2 {"c.txt"} _ (by decide)

/-- C10: the source-analyzer pipeline is not total over parseable files:
`from . import x` gives an `ast.ImportFrom` with `module = None`, the visitor
records a `None` module entry (plus the formatted `"None.x"` string), and
`python_dependencies` then fails inside submodule expansion (Python's
`None.split('.')`, an `AttributeError`) — after reading and parsing
succeeded, so the error is neither an I/O nor a parse failure. -/
theorem C10_relative_import_failure :
    (runVisitor [] [Stmt.importFrom none ["x"]]).modules = [none, some "None.x"] ∧
    python_dependencies [] [Stmt.importFrom none ["x"]] (fun _ => false) "." =
      .error () := by
  constructor
  · rfl
  · rfl

/-! ## Helper lemmas: submodule expansion -/

theorem splitOnChar_ne_nil (c : Char) (cs : List Char) : splitOnChar c cs ≠ [] := by
  cases cs with
  | nil => simp [splitOnChar]
  | cons a as =>
    by_cases ha : a = c
    · simp [splitOnChar, ha]
    · simp only [splitOnChar, if_neg ha]
      cases hq : splitOnChar c as <;> simp

theorem joinDots_cons_head (a : Char) (p : List Char) (t : List (List Char)) :
    joinDots ((a :: p) :: t) = a :: joinDots (p :: t) := by
  cases t <;> simp [joinDots]

theorem joinDots_nil_head (t : List (List Char)) (ht : t ≠ []) :
    joinDots ([] :: t) = '.' :: joinDots t := by
  cases t with
  | nil => exact absurd rfl ht
  | cons u t2 => simp [joinDots]

theorem splitOnChar_length_cons_ne (a : Char) (as : List Char) (ha : ¬a = '.') :
    (splitOnChar '.' (a :: as)).length = (splitOnChar '.' as).length := by
  simp only [splitOnChar, if_neg ha]
  cases hq : splitOnChar '.' as with
  | nil => exact absurd hq (splitOnChar_ne_nil '.' as)
  | cons p ps => simp

theorem joinDots_take_cons_ne (a : Char) (as : List Char) (ha : ¬a = '.') (i : Nat) :
    joinDots ((splitOnChar '.' (a :: as)).take (i + 1)) =
      a :: joinDots ((splitOnChar '.' as).take (i + 1)) := by
  simp only [splitOnChar, if_neg ha]
  cases hq : splitOnChar '.' as with
  | nil => exact absurd hq (splitOnChar_ne_nil '.' as)
  | cons p ps =>
    simp only [List.take_succ_cons]
    exact joinDots_cons_head a p (ps.take i)

theorem joinDots_take_cons_dot (as : List Char) (j : Nat) :
    joinDots ((splitOnChar '.' ('.' :: as)).take (j + 1 + 1)) =
      '.' :: joinDots ((splitOnChar '.' as).take (j + 1)) := by
  have hdot : ('.' : Char) = '.' := rfl
  simp only [splitOnChar, if_pos hdot, List.take_succ_cons]
  apply joinDots_nil_head
  cases hq : splitOnChar '.' as with
  | nil => exact absurd hq (splitOnChar_ne_nil '.' as)
  | cons p ps => simp

theorem joinDots_take_one_dot (as : List Char) :
    joinDots ((splitOnChar '.' ('.' :: as)).take 1) = [] := by
  have hdot : ('.' : Char) = '.' := rfl
  simp only [splitOnChar, if_pos hdot, List.take_succ_cons, List.take_zero]
  rfl

theorem splitOnChar_length_cons_dot (as : List Char) :
    (splitOnChar '.' ('.' :: as)).length = (splitOnChar '.' as).length + 1 := by
  simp [splitOnChar]

theorem prefixJoin_iff : ∀ (cs : List Char) (x : List Char),
    (∃ i, i < (splitOnChar '.' cs).length ∧
      x = joinDots ((splitOnChar '.' cs).take (i + 1))) ↔
    (x = cs ∨ ∃ r, cs = x ++ '.' :: r) := by
  intro cs
  induction cs with
  | nil =>
    intro x
    constructor
    · rintro ⟨i, _, hx⟩
      left
      simpa [splitOnChar, joinDots] using hx
    · rintro (rfl | ⟨r, hr⟩)
      · exact ⟨0, by simp [splitOnChar], by simp [splitOnChar, joinDots]⟩
      · simp at hr
  | cons a as ih =>
    intro x
    by_cases ha : a = '.'
    · subst ha
      constructor
      · rintro ⟨i, hi, hx⟩
        cases i with
        | zero =>
          rw [joinDots_take_one_dot] at hx
          subst hx
          exact Or.inr ⟨as, rfl⟩
        | succ j =>
          rw [joinDots_take_cons_dot] at hx
          subst hx
          have hj : j < (splitOnChar '.' as).length := by
            rw [splitOnChar_length_cons_dot] at hi
            omega
          rcases (ih (joinDots ((splitOnChar '.' as).take (j + 1)))).mp
              ⟨j, hj, rfl⟩ with hcase | ⟨r, hr⟩
          · rw [hcase]
            exact Or.inl rfl
          · refine Or.inr ⟨r, ?_⟩
            simp only [List.cons_append]
            exact congrArg (List.cons '.') hr
      · rintro (rfl | ⟨r, hr⟩)
        · rcases (ih as).mpr (Or.inl rfl) with ⟨j, hj, hjoin⟩
          refine ⟨j + 1, ?_, ?_⟩
          · rw [splitOnChar_length_cons_dot]
            omega
          · rw [joinDots_take_cons_dot, ← hjoin]
        · cases x with
          | nil =>
            refine ⟨0, ?_, (joinDots_take_one_dot as).symm⟩
            rw [splitOnChar_length_cons_dot]
            omega
          | cons c x2 =>
            simp only [List.cons_append] at hr
            injection hr with h1 h2
            subst h1
            rcases (ih x2).mpr (Or.inr ⟨r, h2⟩) with ⟨j, hj, hjoin⟩
            refine ⟨j + 1, ?_, ?_⟩
            · rw [splitOnChar_length_cons_dot]
              omega
            · rw [joinDots_take_cons_dot, ← hjoin]
    · constructor
      · rintro ⟨i, hi, hx⟩
        rw [joinDots_take_cons_ne a as ha] at hx
        subst hx
        have hi2 : i < (splitOnChar '.' as).length := by
          rw [splitOnChar_length_cons_ne a as ha] at hi
          exact hi
        rcases (ih (joinDots ((splitOnChar '.' as).take (i + 1)))).mp
            ⟨i, hi2, rfl⟩ with hcase | ⟨r, hr⟩
        · rw [hcase]
          exact Or.inl rfl
        · refine Or.inr ⟨r, ?_⟩
          simp only [List.cons_append]
          exact congrArg (List.cons a) hr
      · rintro (rfl | ⟨r, hr⟩)
        · rcases (ih as).mpr (Or.inl rfl) with ⟨j, hj, hjoin⟩
          refine ⟨j, ?_, ?_⟩
          · rw [splitOnChar_length_cons_ne a as ha]
            exact hj
          · rw [joinDots_take_cons_ne a as ha, ← hjoin]
        · cases x with
          | nil =>
            exfalso
            simp only [List.nil_append] at hr
            injection hr with h1 _
            exact ha h1
          | cons c x2 =>
            simp only [List.cons_append] at hr
            injection hr with h1 h2
            subst h1
            rcases (ih x2).mpr (Or.inr ⟨r, h2⟩) with ⟨j, hj, hjoin⟩
            refine ⟨j, ?_, ?_⟩
            · rw [splitOnChar_length_cons_ne a as ha]
              exact hj
            · rw [joinDots_take_cons_ne a as ha, ← hjoin]

theorem submodulePrefixes_mem (m x : String) :
    x ∈ submodulePrefixes m ↔ (x = m ∨ ∃ r, m.data = x.data ++ '.' :: r) := by
  unfold submodulePrefixes
  simp only [List.mem_toFinset, List.mem_map, List.mem_range]
  constructor
  · rintro ⟨i, hi, rfl⟩
    rcases (prefixJoin_iff m.data
        (joinDots ((splitOnChar '.' m.data).take (i + 1)))).mp
        ⟨i, hi, rfl⟩ with hcase | ⟨r, hr⟩
    · left
      cases m with
      | mk mdata => exact congrArg String.mk hcase
    · right
      exact ⟨r, hr⟩
  · rintro (rfl | ⟨r, hr⟩)
    · rcases (prefixJoin_iff x.data x.data).mpr (Or.inl rfl) with ⟨i, hi, hjoin⟩
      refine ⟨i, hi, ?_⟩
      cases x with
      | mk xdata => exact congrArg String.mk hjoin.symm
    · rcases (prefixJoin_iff m.data x.data).mpr (Or.inr ⟨r, hr⟩) with ⟨i, hi, hjoin⟩
      refine ⟨i, hi, ?_⟩
      cases x with
      | mk xdata => exact congrArg String.mk hjoin.symm

theorem extend_some_spec : ∀ ms : List String,
    ∃ S, _extend_with_submodules (ms.map some) = .ok S ∧
      ∀ x, x ∈ S ↔ ∃ m ∈ ms, x ∈ submodulePrefixes m := by
  intro ms
  induction ms with
  | nil => exact ⟨∅, rfl, by simp⟩
  | cons m rest ih =>
    rcases ih with ⟨S, hS, hmem⟩
    refine ⟨submodulePrefixes m ∪ S, ?_, ?_⟩
    · simp only [List.map_cons, _extend_with_submodules, hS]
      rfl
    · intro x
      simp only [Finset.mem_union, hmem, List.mem_cons]
      constructor
      · rintro (hx | ⟨m2, hm2, hx⟩)
        · exact ⟨m, Or.inl rfl, hx⟩
        · exact ⟨m2, Or.inr hm2, hx⟩
      · rintro ⟨m2, rfl | hm2, hx⟩
        · exact Or.inl hx
        · exact Or.inr ⟨m2, hm2, hx⟩

/-- C7: for every list of dotted module names, submodule expansion returns
exactly the set of all dotted prefixes of the names (a prefix being the name
itself or any cut at a dot); in particular expanding
`["foo.bar", "foo.foo.baz"]` yields exactly
`{"foo", "foo.bar", "foo.foo", "foo.foo.baz"}`. -/
theorem C7_submodule_expansion :
    (∀ ms : List String, ∃ S, _extend_with_submodules (ms.map some) = .ok S ∧
      ∀ x : String, x ∈ S ↔ ∃ m ∈ ms, x = m ∨ ∃ r, m.data = x.data ++ '.' :: r) ∧
    _extend_with_submodules (["foo.bar", "foo.foo.baz"].map some) =
      .ok {"foo", "foo.bar", "foo.foo", "foo.foo.baz"} := by
  constructor
  · intro ms
    rcases extend_some_spec ms with ⟨S, hS, hmem⟩
    refine ⟨S, hS, ?_⟩
    intro x
    rw [hmem x]
    constructor
    · rintro ⟨m, hm, hx⟩
      exact ⟨m, hm, (submodulePrefixes_mem m x).mp hx⟩
    · rintro ⟨m, hm, hx⟩
      exact ⟨m, hm, (submodulePrefixes_mem m x).mpr hx⟩
  · decide

/-- C5: per candidate dotted module name, the resolver returns
`<base>/<dots-as-separators>.py` when it exists, else
`<base>/<dots-as-separators>/__init__.py` when it exists, and else silently
drops the candidate; on the claim's concrete example exactly the two
existing paths are returned and `"foo"` is skipped. -/
theorem C5_module_resolution :
    (∀ (ex : String → Bool) (ms : List String) (start_path : String),
      _get_modules_filenames ex ms start_path =
        ms.filterMap (resolveCandidate ex start_path)) ∧
    _get_modules_filenames
      (fun p => p == "start/foo/bar/baz.py" || p == "start/foo/bar/__init__.py")
      ["foo.bar.baz", "foo.bar", "foo"] "start" =
      ["start/foo/bar/baz.py", "start/foo/bar/__init__.py"] := by
  constructor
  · intro ex ms start_path
    induction ms with
    | nil => rfl
    | cons m rest ih =>
      by_cases h1 : ex (joinPath start_path (moduleToPath m ++ ".py")) = true
      · have hres : resolveCandidate ex start_path m =
            some (joinPath start_path (moduleToPath m ++ ".py")) := by
          unfold resolveCandidate
          simp [h1]
        simp only [_get_modules_filenames, List.filterMap_cons, hres, h1, if_true, ih]
      · by_cases h2 :
            ex (joinPath (joinPath start_path (moduleToPath m)) "__init__.py") = true
        · have hres : resolveCandidate ex start_path m =
              some (joinPath (joinPath start_path (moduleToPath m)) "__init__.py") := by
            unfold resolveCandidate
            simp [h1, h2]
          simp only [_get_modules_filenames, List.filterMap_cons, hres, ih]
          simp [h1, h2]
        · have hres : resolveCandidate ex start_path m = none := by
            unfold resolveCandidate
            simp [h1, h2]
          simp only [_get_modules_filenames, List.filterMap_cons, hres, ih]
          simp [h1, h2]
  · decide

/-- C6 counterexample: the include `"x.html/"` (extractable from a template,
since `[^"]+` also matches a trailing slash) is normalized by the code with
BOTH ends stripped of slashes, while the claim's wording strips leading
separators only: the two results differ. -/
theorem C6_counterexample :
    "x.html/" ∈ findIncludesAux "file=\"x.html/\"".data ∧
    normalizeInclude "t/page.html" "templates" "x.html/" = "templates/x.html" ∧
    claimNormalizeInclude "t/page.html" "templates" "x.html/" = "templates/x.html/" ∧
    normalizeInclude "t/page.html" "templates" "x.html/" ≠
      claimNormalizeInclude "t/page.html" "templates" "x.html/" := by
  refine ⟨?_, ?_, ?_, ?_⟩ <;> decide

theorem pyStrip_slash (inc : String) :
    pyStrip "/" inc =
      ⟨((inc.data.dropWhile (fun c => c = '/')).reverse.dropWhile
          (fun c => c = '/')).reverse⟩ := by
  unfold pyStrip
  have hpred : (fun c => ("/".data.contains c)) = (fun c : Char => decide (c = '/')) := by
    funext c
    show ['/'].contains c = decide (c = '/')
    by_cases h : c = '/' <;> simp [h]
  rw [hpred]

/-- C6 (amended): for every include extracted from a `file="..."` occurrence
in a template at path P with root T: a path starting with the
parent-directory marker resolves to the normalization of `dirname(P)` joined
with the path; any other path resolves to T joined with the path after
stripping LEADING AND TRAILING path separators. -/
theorem C6_include_resolution (content filename template_path inc : String)
    (hinc : inc ∈ findIncludesAux content.data) :
    normalizeInclude filename template_path inc =
      specNormalizeInclude filename template_path inc := by
  unfold normalizeInclude specNormalizeInclude
  by_cases h : pyStartsWith inc ".." = true
  · simp [h]
  · simp only [h, if_false, Bool.false_eq_true]
    rw [pyStrip_slash]

/-- Witness for C6's amended theorem on a concrete extracted include. -/
theorem C6_include_resolution_witness :
    "a.html" ∈ findIncludesAux "file=\"a.html\"".data ∧
    normalizeInclude "t/p.html" "templates" "a.html" =
      specNormalizeInclude "t/p.html" "templates" "a.html" :=
  ⟨by decide, C6_include_resolution "file=\"a.html\"" "t/p.html" "templates" "a.html"
    (by decide)⟩

/-- C3 counterexample: with patterns `[("open", arg 2), ("open", arg 0)]`
and the call `open("a.txt")`, the first glob-matching pattern has an
out-of-range argument, yet the code records `"a.txt"` via the SECOND
pattern, while the claim's first-match rule records nothing; and for
`open("")` the argument is a string literal, yet the code records nothing
(`if filename:` drops the empty string) while the claim records `""`. -/
theorem C3_counterexample :
    visit_Call patsSkip callATxt [] = ["a.txt"] ∧
    claimVisitCall patsSkip callATxt [] = [] ∧
    visit_Call patsOne callEmpty [] = [] ∧
    claimVisitCall patsOne callEmpty [] = [""] :=
  ⟨rfl, rfl, rfl, rfl⟩

/-! ## Helper lemmas: call-pattern filename extraction -/

theorem extract_cons_nomatch (cp0 : CallPattern) (rest : List CallPattern)
    (fn : String) (args : List PExpr) (kws : List (String × PExpr))
    (hm : ¬fnmatch fn cp0.pat = true) :
    _extract_filename (cp0 :: rest) fn args kws =
      _extract_filename rest fn args kws := by
  simp only [_extract_filename, if_neg hm]

theorem extract_cons_hit (cp0 : CallPattern) (rest : List CallPattern)
    (fn : String) (args : List PExpr) (kws : List (String × PExpr)) (s : String)
    (hm : fnmatch fn cp0.pat = true)
    (hres : resolveArg cp0.sel args kws = some (PExpr.str s)) :
    _extract_filename (cp0 :: rest) fn args kws = some (applyPost cp0.post s) := by
  simp only [_extract_filename, if_pos hm, hres]

theorem extract_cons_nonlit (cp0 : CallPattern) (rest : List CallPattern)
    (fn : String) (args : List PExpr) (kws : List (String × PExpr))
    (hm : fnmatch fn cp0.pat = true)
    (hres : ∀ s, resolveArg cp0.sel args kws ≠ some (PExpr.str s)) :
    _extract_filename (cp0 :: rest) fn args kws =
      _extract_filename rest fn args kws := by
  simp only [_extract_filename, if_pos hm]

/-- C3 (amended): patterns are tried in configuration order and the first
pattern that BOTH glob-matches the callee's derived simple name AND
resolves to a string-literal argument is used (a glob-matching pattern
whose designated argument is missing, out of range, or not a literal is
skipped in favour of later patterns); a filename is recorded from a call
iff the callee has a derivable simple name, such a pattern exists, and the
post-processed literal is a non-empty string. -/
theorem C3_call_extraction (functions : List CallPattern) :
    (∀ (fn : String) (args : List PExpr) (kws : List (String × PExpr)) (v : String),
      _extract_filename functions fn args kws = some v ↔
        ∃ l1 cp l2, functions = l1 ++ cp :: l2 ∧ fnmatch fn cp.pat = true ∧
          (∃ s, resolveArg cp.sel args kws = some (PExpr.str s) ∧
            v = applyPost cp.post s) ∧
          ∀ cp2 ∈ l1, ¬(fnmatch fn cp2.pat = true ∧
            ∃ s, resolveArg cp2.sel args kws = some (PExpr.str s))) ∧
    (∀ (node : CallNode) (prev : List String) (fn : String) (v : String),
      calleeName node.callee = some fn →
      _extract_filename functions fn node.args node.keywords = some v →
      v ≠ "" → visit_Call functions node prev = prev ++ [v]) ∧
    (∀ (node : CallNode) (prev : List String),
      (¬∃ fn v, calleeName node.callee = some fn ∧
        _extract_filename functions fn node.args node.keywords = some v ∧ v ≠ "") →
      visit_Call functions node prev = prev) := by
  refine ⟨?_, ?_, ?_⟩
  · intro fn args kws
    induction functions with
    | nil =>
      intro v
      constructor
      · intro h
        cases h
      · rintro ⟨l1, cp, l2, heq, _⟩
        exact absurd heq (by simp)
    | cons cp0 rest ih =>
      intro v
      constructor
      · intro h
        by_cases hm : fnmatch fn cp0.pat = true
        · by_cases hlit : ∃ s, resolveArg cp0.sel args kws = some (PExpr.str s)
          · rcases hlit with ⟨s, hres⟩
            rw [extract_cons_hit cp0 rest fn args kws s hm hres] at h
            injection h with h
            exact ⟨[], cp0, rest, rfl, hm, ⟨s, hres, h.symm⟩, by simp⟩
          · push_neg at hlit
            rw [extract_cons_nonlit cp0 rest fn args kws hm hlit] at h
            rcases (ih v).mp h with ⟨l1, cp, l2, heq, hcp, hlitcp, hprev⟩
            refine ⟨cp0 :: l1, cp, l2, by simp [heq], hcp, hlitcp, ?_⟩
            intro cp2 hcp2
            rcases List.mem_cons.mp hcp2 with rfl | hcp2
            · rintro ⟨_, s, hs⟩
              exact hlit s hs
            · exact hprev cp2 hcp2
        · rw [extract_cons_nomatch cp0 rest fn args kws hm] at h
          rcases (ih v).mp h with ⟨l1, cp, l2, heq, hcp, hlitcp, hprev⟩
          refine ⟨cp0 :: l1, cp, l2, by simp [heq], hcp, hlitcp, ?_⟩
          intro cp2 hcp2
          rcases List.mem_cons.mp hcp2 with rfl | hcp2
          · rintro ⟨hm2, _⟩
            exact hm hm2
          · exact hprev cp2 hcp2
      · rintro ⟨l1, cp, l2, heq, hcp, ⟨s, hres, hv⟩, hprev⟩
        cases l1 with
        | nil =>
          simp only [List.nil_append] at heq
          injection heq with h1 h2
          subst h1
          rw [extract_cons_hit cp0 rest fn args kws s hcp hres, hv]
        | cons cpa l1t =>
          simp only [List.cons_append] at heq
          injection heq with h1 h2
          subst h1
          have hnot := hprev cp0 (List.mem_cons_self cp0 l1t)
          by_cases hm : fnmatch fn cp0.pat = true
          · have hlit : ∀ s2, resolveArg cp0.sel args kws ≠ some (PExpr.str s2) := by
              intro s2 hs2
              exact hnot ⟨hm, s2, hs2⟩
            rw [extract_cons_nonlit cp0 rest fn args kws hm hlit]
            exact (ih v).mpr ⟨l1t, cp, l2, h2, hcp, ⟨s, hres, hv⟩,
              fun cp2 hcp2 => hprev cp2 (List.mem_cons_of_mem _ hcp2)⟩
          · rw [extract_cons_nomatch cp0 rest fn args kws hm]
            exact (ih v).mpr ⟨l1t, cp, l2, h2, hcp, ⟨s, hres, hv⟩,
              fun cp2 hcp2 => hprev cp2 (List.mem_cons_of_mem _ hcp2)⟩
  · intro node prev fn v hname hext hv
    simp only [visit_Call, hname, hext, if_neg hv]
  · intro node prev hno
    cases hname : calleeName node.callee with
    | none => simp only [visit_Call, hname]
    | some fn =>
      cases hext : _extract_filename functions fn node.args node.keywords with
      | none => simp only [visit_Call, hname, hext]
      | some v =>
        by_cases hv : v = ""
        · simp only [visit_Call, hname, hext, if_pos hv]
        · exact absurd ⟨fn, v, hname, hext, hv⟩ hno

/-- Witness for C3's amended theorem: applying it to the counterexample
configuration shows the second pattern's literal is extracted and
recorded. -/
theorem C3_call_extraction_witness :
    (calleeName callATxt.callee = some "open" ∧
      _extract_filename patsSkip "open" callATxt.args callATxt.keywords =
        some "a.txt" ∧ "a.txt" ≠ "") ∧
    visit_Call patsSkip callATxt [] = [] ++ ["a.txt"] :=
  ⟨⟨by decide, by decide, by decide⟩,
    (C3_call_extraction patsSkip).2.1 callATxt [] "open" "a.txt"
      (by decide) (by decide) (by decide)⟩
